import Mathlib

/-!
Verification of the arithmetic core of the Co-FHE/tfhe-rs repository:
a shallow embedding, at the plaintext-value level, of

* the "smart" parallel addition on radix ciphertexts
  (`src/tfhe/src/integer/server_key/radix_parallel/add.rs`),
* the generic parallel tournament reduction (`reduce_impl` in the same file),
* the host/device ciphertext bridge
  (`src/tfhe/src/integer/gpu/ciphertext/mod.rs`), and
* the four plaintext transfer functions of the ERC20 benchmark
  (`src/tfhe/benches/high_level_api/erc20.rs`).

Opaque low-level primitives that are not part of the repository sources
(LWE encryption, bootstrap, device memory) are modelled from the spec, as
indicated by the doc comment of each such definition.
-/

namespace Erc20

/-- Modelled from the spec: `FheUint64` arithmetic is u64 arithmetic modulo
`2^64` on the decrypted values.  `W` is that modulus. -/
def W : Nat := 2 ^ 64

/-- Modelled from the spec: wrapping u64 addition (`Add for FheUint64`). -/
def wrapAdd (a b : Nat) : Nat := (a + b) % W

/-- Modelled from the spec: wrapping u64 subtraction (`Sub for FheUint64`);
faithful for operands below `W`. -/
def wrapSub (a b : Nat) : Nat := (a + W - b) % W

/-- Modelled from the spec: wrapping u64 multiplication (`Mul for FheUint64`). -/
def wrapMul (a b : Nat) : Nat := a * b % W

/-- Modelled from the spec: `FheType::cast_from(FheBool)`, `true ↦ 1`, `false ↦ 0`. -/
def castFromBool (b : Bool) : Nat := if b then 1 else 0

/-- Modelled from the spec: the `ge` comparison of `FheOrd`. -/
def fheGe (a b : Nat) : Bool := decide (b ≤ a)

/-- Modelled from the spec: `FheBool::if_then_else` (cmux) at the value level. -/
def ifThenElse (c : Bool) (x y : Nat) : Nat := if c then x else y

/-- Modelled from the spec: `overflowing_sub` returns the wrapped difference and
the borrow flag (set iff the subtrahend exceeds the minuend). -/
def overflowingSub (a b : Nat) : Nat × Bool := (wrapSub a b, decide (a < b))

/-- Modelled from the spec: `overflowing_add` returns the wrapped sum and the
carry flag (set iff the exact sum reaches `2^64`). -/
def overflowingAdd (a b : Nat) : Nat × Bool := (wrapAdd a b, decide (W ≤ a + b))

/-- Transfer as in the FHEvm whitepaper: compare, then cmux both new balances
(`transfer_whitepaper` in `benches/high_level_api/erc20.rs`). -/
def transfer_whitepaper (from_amount to_amount amount : Nat) : Nat × Nat :=
  let has_enough_funds := fheGe from_amount amount
  let new_to_amount := wrapAdd to_amount amount
  let new_to_amount := ifThenElse has_enough_funds new_to_amount to_amount
  let new_from_amount := wrapSub from_amount amount
  let new_from_amount := ifThenElse has_enough_funds new_from_amount from_amount
  (new_from_amount, new_to_amount)

/-- Transfer using boolean multiplication instead of cmuxes
(`transfer_no_cmux` in `benches/high_level_api/erc20.rs`). -/
def transfer_no_cmux (from_amount to_amount amount : Nat) : Nat × Nat :=
  let has_enough_funds := fheGe from_amount amount
  let amount2 := wrapMul amount (castFromBool has_enough_funds)
  let new_to_amount := wrapAdd to_amount amount2
  let new_from_amount := wrapSub from_amount amount2
  (new_from_amount, new_to_amount)

/-- Transfer using `overflowing_sub` to detect insufficient funds
(`transfer_overflow` in `benches/high_level_api/erc20.rs`). -/
def transfer_overflow (from_amount to_amount amount : Nat) : Nat × Nat :=
  let r := overflowingSub from_amount amount
  let new_from := r.1
  let did_not_have_enough := r.2
  let new_from_amount := ifThenElse did_not_have_enough from_amount new_from
  let had_enough_funds := !did_not_have_enough
  let new_to_amount := wrapAdd to_amount (wrapMul amount (castFromBool had_enough_funds))
  (new_from_amount, new_to_amount)

/-- Transfer checking both the sender's funds and the receiver's headroom
(`transfer_safe` in `benches/high_level_api/erc20.rs`). -/
def transfer_safe (from_amount to_amount amount : Nat) : Nat × Nat :=
  let rs := overflowingSub from_amount amount
  let ra := overflowingAdd to_amount amount
  let something_not_ok := rs.2 || ra.2
  let new_from_amount := ifThenElse something_not_ok from_amount rs.1
  let new_to_amount := ifThenElse something_not_ok to_amount ra.1
  (new_from_amount, new_to_amount)

lemma transfer_whitepaper_eq (f t a : Nat) :
    transfer_whitepaper f t a =
      if a ≤ f then (wrapSub f a, wrapAdd t a) else (f, t) := by
  unfold transfer_whitepaper fheGe ifThenElse
  by_cases h : a ≤ f <;> simp [h]

lemma transfer_no_cmux_eq (f t a : Nat) (hf : f < W) (ht : t < W) (ha : a < W) :
    transfer_no_cmux f t a =
      if a ≤ f then (wrapSub f a, wrapAdd t a) else (f, t) := by
  unfold transfer_no_cmux fheGe castFromBool wrapMul
  by_cases h : a ≤ f
  · simp [h, Nat.mod_eq_of_lt ha]
  · simp [h, wrapSub, wrapAdd, Nat.add_mod_right, Nat.mod_eq_of_lt hf,
      Nat.mod_eq_of_lt ht]

lemma transfer_overflow_eq (f t a : Nat) (_hf : f < W) (ht : t < W) (ha : a < W) :
    transfer_overflow f t a =
      if a ≤ f then (wrapSub f a, wrapAdd t a) else (f, t) := by
  unfold transfer_overflow overflowingSub castFromBool wrapMul ifThenElse
  by_cases h : a ≤ f
  · simp [Nat.not_lt.mpr h, h, Nat.mod_eq_of_lt ha]
  · simp [Nat.lt_of_not_le h, h, wrapAdd, Nat.mod_eq_of_lt ht]

lemma transfer_safe_eq (f t a : Nat) :
    transfer_safe f t a =
      if a ≤ f ∧ t + a < W then (wrapSub f a, wrapAdd t a) else (f, t) := by
  unfold transfer_safe overflowingSub overflowingAdd ifThenElse
  by_cases h1 : a ≤ f <;> by_cases h2 : t + a < W
  · simp [h1, h2, Nat.not_lt.mpr h1, Nat.not_le.mpr h2]
  · simp [h1, h2, Nat.not_lt.mpr h1, Nat.le_of_not_lt h2]
  · simp [h1, h2, Nat.lt_of_not_le h1]
  · simp [h1, h2, Nat.lt_of_not_le h1]

lemma wvalue_pos : 0 < W := by norm_num [W]

/-- C8: each of the four transfer functions conserves the total balance
modulo `2^64`, whether the transfer is applied or cancelled. -/
theorem transfers_conserve_total_balance
    (f t a : Nat) (hf : f < W) (ht : t < W) (ha : a < W) :
    ((transfer_whitepaper f t a).1 + (transfer_whitepaper f t a).2) % W = (f + t) % W ∧
    ((transfer_no_cmux f t a).1 + (transfer_no_cmux f t a).2) % W = (f + t) % W ∧
    ((transfer_overflow f t a).1 + (transfer_overflow f t a).2) % W = (f + t) % W ∧
    ((transfer_safe f t a).1 + (transfer_safe f t a).2) % W = (f + t) % W := by
  have hW : W = 18446744073709551616 := by norm_num [W]
  rw [transfer_whitepaper_eq, transfer_no_cmux_eq f t a hf ht ha,
    transfer_overflow_eq f t a hf ht ha, transfer_safe_eq]
  unfold wrapAdd wrapSub
  rw [hW] at *
  refine ⟨?_, ?_, ?_, ?_⟩ <;> split_ifs <;> simp only [] <;> omega

/-- C9: `transfer_whitepaper`, `transfer_no_cmux` and `transfer_overflow`
compute identical results: `(from - amount, to + amount)` wrapped when
`from ≥ amount` and `(from, to)` otherwise; `transfer_safe` agrees except
that it also leaves both balances unchanged when `to + amount` would
overflow `2^64` despite `from ≥ amount`. -/
theorem transfer_variants_agree
    (f t a : Nat) (hf : f < W) (ht : t < W) (ha : a < W) :
    transfer_no_cmux f t a = transfer_whitepaper f t a ∧
    transfer_overflow f t a = transfer_whitepaper f t a ∧
    transfer_whitepaper f t a =
      (if a ≤ f then (wrapSub f a, wrapAdd t a) else (f, t)) ∧
    transfer_safe f t a =
      (if a ≤ f ∧ t + a < W then transfer_whitepaper f t a else (f, t)) := by
  refine ⟨?_, ?_, transfer_whitepaper_eq f t a, ?_⟩
  · rw [transfer_no_cmux_eq f t a hf ht ha, transfer_whitepaper_eq]
  · rw [transfer_overflow_eq f t a hf ht ha, transfer_whitepaper_eq]
  · rw [transfer_safe_eq, transfer_whitepaper_eq]
    by_cases h1 : a ≤ f <;> by_cases h2 : t + a < W <;> simp [h1, h2]

/-- Witness for C8 at `f = 5, t = 3, a = 2`. -/
theorem transfers_conserve_total_balance_witness :
    ((transfer_whitepaper 5 3 2).1 + (transfer_whitepaper 5 3 2).2) % W = (5 + 3) % W ∧
    ((transfer_no_cmux 5 3 2).1 + (transfer_no_cmux 5 3 2).2) % W = (5 + 3) % W ∧
    ((transfer_overflow 5 3 2).1 + (transfer_overflow 5 3 2).2) % W = (5 + 3) % W ∧
    ((transfer_safe 5 3 2).1 + (transfer_safe 5 3 2).2) % W = (5 + 3) % W :=
  transfers_conserve_total_balance 5 3 2 (by decide) (by decide) (by decide)

/-- Witness for C9 at `f = 5, t = 3, a = 2`. -/
theorem transfer_variants_agree_witness :
    transfer_no_cmux 5 3 2 = transfer_whitepaper 5 3 2 ∧
    transfer_overflow 5 3 2 = transfer_whitepaper 5 3 2 ∧
    transfer_whitepaper 5 3 2 =
      (if 2 ≤ 5 then (wrapSub 5 2, wrapAdd 3 2) else (5, 3)) ∧
    transfer_safe 5 3 2 =
      (if 2 ≤ 5 ∧ 3 + 2 < W then transfer_whitepaper 5 3 2 else (5, 3)) :=
  transfer_variants_agree 5 3 2 (by decide) (by decide) (by decide)

end Erc20

namespace Reducer

/-- One parallel combination round's pairing of consecutive slots
(`ct_seq_slice.par_chunks_mut(2)` + `op` in `reduce_impl`); the input slice
always has even length in the source, so the one-element case is unreachable
there and is carried through unchanged here. -/
def combinePairs {α : Type*} (op : α → α → α) : List α → List α
  | [] => []
  | [a] => [a]
  | a :: b :: rest => op a b :: combinePairs op rest

/-- One iteration of the `while ct_seq.len() > 1` loop of `reduce_impl`:
an odd slot count carries the first slot over untouched, the rest are
combined pairwise and appended after the carried slot. -/
def reduceRound {α : Type*} (op : α → α → α) (l : List α) : List α :=
  let untouched := l.length % 2
  l.take untouched ++ combinePairs op (l.drop untouched)

/-- The `while` loop of `reduce_impl`, with an explicit fuel bound; the slot
count strictly decreases each round, so fuel equal to the initial length is
always sufficient (`reduceLoop_length`). -/
def reduceLoop {α : Type*} (op : α → α → α) : Nat → List α → List α
  | 0, l => l
  | fuel + 1, l => if l.length ≤ 1 then l else reduceLoop op fuel (reduceRound op l)

/-- The body of `reduce_impl` in
`src/tfhe/src/integer/server_key/radix_parallel/add.rs`: `None` on an empty
sequence, otherwise iterate rounds until one slot remains and pop it. -/
def reduceImpl {α : Type*} (op : α → α → α) (l : List α) : Option α :=
  if l.isEmpty then none else (reduceLoop op l.length l).getLast?

/-- Number of iterations the `while` loop of `reduce_impl` performs. -/
def roundsCount {α : Type*} (op : α → α → α) : Nat → List α → Nat
  | 0, _ => 0
  | fuel + 1, l =>
    if l.length ≤ 1 then 0 else roundsCount op fuel (reduceRound op l) + 1

/-- Number of applications of `op` performed by the loop of `reduce_impl`
(each round performs one application per pair, i.e. `len / 2` of them). -/
def opsCount {α : Type*} (op : α → α → α) : Nat → List α → Nat
  | 0, _ => 0
  | fuel + 1, l =>
    if l.length ≤ 1 then 0
    else l.length / 2 + opsCount op fuel (reduceRound op l)

/-- All possible results of `reduce_impl`'s loop when the mutex-guarded
collection may deliver each round's pair results in any order: a round
appends an arbitrary permutation of the pairwise combinations after the
untouched odd slot. -/
inductive ReducesTo {α : Type*} (op : α → α → α) : List α → α → Prop
  | single (a : α) : ReducesTo op [a] a
  | step (l mid : List α) (r : α) (h2 : 2 ≤ l.length)
      (hperm : mid.Perm (combinePairs op (l.drop (l.length % 2))))
      (hrec : ReducesTo op (l.take (l.length % 2) ++ mid) r) :
      ReducesTo op l r

/-- Folding step over `Option`, adjoining a unit to the operator so that the
left-to-right fold of any list (also the empty one) is expressible. -/
def foldStep {V : Type*} (f : V → V → V) (acc : Option V) (x : V) : Option V :=
  some (match acc with | none => x | some v => f v x)

/-- Left-to-right fold of a list with `f`, `none` on the empty list. -/
def foldOpt {V : Type*} (f : V → V → V) (l : List V) : Option V :=
  l.foldl (foldStep f) none

lemma foldl_foldStep_some {V : Type*} (f : V → V → V) :
    ∀ (l : List V) (v : V),
      List.foldl (foldStep f) (some v) l = some (List.foldl f v l)
  | [], _ => rfl
  | x :: l, v => by
    simp only [List.foldl_cons]
    exact foldl_foldStep_some f l (f v x)

lemma foldOpt_cons {V : Type*} (f : V → V → V) (v : V) (l : List V) :
    foldOpt f (v :: l) = some (List.foldl f v l) := by
  unfold foldOpt
  simp only [List.foldl_cons]
  exact foldl_foldStep_some f l v

lemma foldStep_op {V : Type*} (f : V → V → V)
    (hA : ∀ x y z, f (f x y) z = f x (f y z)) (acc : Option V) (x y : V) :
    foldStep f acc (f x y) = foldStep f (foldStep f acc x) y := by
  cases acc with
  | none => rfl
  | some v => simp only [foldStep, hA]

lemma foldStep_right_comm {V : Type*} (f : V → V → V)
    (hA : ∀ x y z, f (f x y) z = f x (f y z)) (hC : ∀ x y, f x y = f y x)
    (acc : Option V) (x y : V) :
    foldStep f (foldStep f acc x) y = foldStep f (foldStep f acc y) x := by
  cases acc with
  | none => simp only [foldStep, hC x y]
  | some v => simp only [foldStep]; rw [hA, hC x y, ← hA]

lemma foldl_foldStep_combinePairs {V : Type*} (f : V → V → V)
    (hA : ∀ x y z, f (f x y) z = f x (f y z)) :
    ∀ (l : List V) (acc : Option V),
      List.foldl (foldStep f) acc (combinePairs f l) =
        List.foldl (foldStep f) acc l
  | [], _ => rfl
  | [_], _ => rfl
  | a :: b :: rest, acc => by
    rw [show combinePairs f (a :: b :: rest) = f a b :: combinePairs f rest from rfl]
    simp only [List.foldl_cons]
    rw [foldStep_op f hA]
    exact foldl_foldStep_combinePairs f hA rest _

lemma foldl_foldStep_perm {V : Type*} (f : V → V → V)
    (hA : ∀ x y z, f (f x y) z = f x (f y z)) (hC : ∀ x y, f x y = f y x)
    {l₁ l₂ : List V} (p : l₁.Perm l₂) :
    ∀ acc, List.foldl (foldStep f) acc l₁ = List.foldl (foldStep f) acc l₂ := by
  induction p with
  | nil => intro _; rfl
  | cons x _ ih => intro acc; simp only [List.foldl_cons]; exact ih _
  | swap x y l =>
    intro acc
    simp only [List.foldl_cons]
    rw [foldStep_right_comm f hA hC]
  | trans _ _ ih1 ih2 => intro acc; rw [ih1, ih2]

lemma combinePairs_length {α : Type*} (f : α → α → α) :
    ∀ l : List α, (combinePairs f l).length = (l.length + 1) / 2
  | [] => by simp [combinePairs]
  | [_] => by simp [combinePairs]
  | a :: b :: rest => by
    rw [show combinePairs f (a :: b :: rest) = f a b :: combinePairs f rest from rfl]
    simp only [List.length_cons, combinePairs_length f rest]
    omega

lemma reduceRound_length {α : Type*} (f : α → α → α) (l : List α) :
    (reduceRound f l).length = (l.length + 1) / 2 := by
  unfold reduceRound
  rw [List.length_append, List.length_take, combinePairs_length, List.length_drop]
  omega

lemma map_combinePairs {α V : Type*} (g : α → α → α) (f : V → V → V) (d : α → V)
    (hhom : ∀ x y, d (g x y) = f (d x) (d y)) :
    ∀ l : List α, (combinePairs g l).map d = combinePairs f (l.map d)
  | [] => rfl
  | [_] => rfl
  | a :: b :: rest => by
    rw [show combinePairs g (a :: b :: rest) = g a b :: combinePairs g rest from rfl]
    simp only [List.map_cons]
    rw [show combinePairs f (d a :: d b :: rest.map d) =
        f (d a) (d b) :: combinePairs f (rest.map d) from rfl]
    rw [hhom, map_combinePairs g f d hhom rest]

lemma foldOpt_reduceRound {α V : Type*} (g : α → α → α) (f : V → V → V)
    (d : α → V) (hA : ∀ x y z, f (f x y) z = f x (f y z))
    (hhom : ∀ x y, d (g x y) = f (d x) (d y)) (l : List α) :
    foldOpt f ((reduceRound g l).map d) = foldOpt f (l.map d) := by
  unfold reduceRound foldOpt
  rw [List.map_append, List.foldl_append, map_combinePairs g f d hhom,
    foldl_foldStep_combinePairs f hA, List.map_take, List.map_drop,
    ← List.foldl_append, List.take_append_drop]

lemma foldOpt_step {α V : Type*} (g : α → α → α) (f : V → V → V) (d : α → V)
    (hA : ∀ x y z, f (f x y) z = f x (f y z)) (hC : ∀ x y, f x y = f y x)
    (hhom : ∀ x y, d (g x y) = f (d x) (d y)) (l mid : List α)
    (hperm : mid.Perm (combinePairs g (l.drop (l.length % 2)))) :
    foldOpt f ((l.take (l.length % 2) ++ mid).map d) = foldOpt f (l.map d) := by
  unfold foldOpt
  rw [List.map_append, List.foldl_append,
    foldl_foldStep_perm f hA hC (hperm.map d),
    map_combinePairs g f d hhom, foldl_foldStep_combinePairs f hA,
    List.map_take, List.map_drop, ← List.foldl_append, List.take_append_drop]

lemma reducesTo_foldOpt {α V : Type*} (g : α → α → α) (f : V → V → V)
    (d : α → V) (hA : ∀ x y z, f (f x y) z = f x (f y z))
    (hC : ∀ x y, f x y = f y x) (hhom : ∀ x y, d (g x y) = f (d x) (d y))
    {l : List α} {r : α} (h : ReducesTo g l r) :
    foldOpt f (l.map d) = some (d r) := by
  induction h with
  | single a => rfl
  | step l mid r h2 hperm hrec ih =>
    rw [← foldOpt_step g f d hA hC hhom l mid hperm]
    exact ih

lemma foldOpt_reduceLoop {α V : Type*} (g : α → α → α) (f : V → V → V)
    (d : α → V) (hA : ∀ x y z, f (f x y) z = f x (f y z))
    (hhom : ∀ x y, d (g x y) = f (d x) (d y)) :
    ∀ (fuel : Nat) (l : List α),
      foldOpt f ((reduceLoop g fuel l).map d) = foldOpt f (l.map d)
  | 0, _ => rfl
  | fuel + 1, l => by
    unfold reduceLoop
    by_cases h : l.length ≤ 1
    · rw [if_pos h]
    · rw [if_neg h, foldOpt_reduceLoop g f d hA hhom fuel (reduceRound g l),
        foldOpt_reduceRound g f d hA hhom]

lemma reduceLoop_length {α : Type*} (g : α → α → α) :
    ∀ (fuel : Nat) (l : List α), 1 ≤ l.length → l.length ≤ fuel + 1 →
      (reduceLoop g fuel l).length = 1
  | 0, l, h1, h2 => by unfold reduceLoop; omega
  | fuel + 1, l, h1, h2 => by
    unfold reduceLoop
    by_cases h : l.length ≤ 1
    · rw [if_pos h]; omega
    · rw [if_neg h]
      exact reduceLoop_length g fuel (reduceRound g l)
        (by rw [reduceRound_length]; omega) (by rw [reduceRound_length]; omega)

/-- C2: for any operator `g` on ciphertexts whose decrypted-value semantics
`f` (via decryption `d`) is associative and commutative,
`smart_binary_op_seq_parallelized` on a non-empty sequence returns `Some` of
a result decrypting to the left-to-right fold of the decrypted inputs, and
every run of the loop (any collection order of each round's pair results,
hence any thread count) decrypts to that same fold. -/
theorem smart_binary_op_seq_parallelized_correct {α V : Type*}
    (g : α → α → α) (f : V → V → V) (d : α → V)
    (hA : ∀ x y z, f (f x y) z = f x (f y z))
    (hC : ∀ x y, f x y = f y x)
    (hhom : ∀ x y, d (g x y) = f (d x) (d y))
    (a : α) (rest : List α) :
    (∃ r₀, reduceImpl g (a :: rest) = some r₀ ∧
        d r₀ = List.foldl f (d a) (rest.map d)) ∧
    (∀ r, ReducesTo g (a :: rest) r →
        d r = List.foldl f (d a) (rest.map d)) := by
  have hfold : foldOpt f ((a :: rest).map d) =
      some (List.foldl f (d a) (rest.map d)) := by
    rw [List.map_cons]; exact foldOpt_cons f (d a) (rest.map d)
  constructor
  · have hlen : (reduceLoop g (a :: rest).length (a :: rest)).length = 1 :=
      reduceLoop_length g _ _ (by simp) (by simp)
    obtain ⟨x, hx⟩ := List.length_eq_one.mp hlen
    refine ⟨x, ?_, ?_⟩
    · unfold reduceImpl
      rw [if_neg (by simp), hx]
      rfl
    · have hpres := foldOpt_reduceLoop g f d hA hhom (a :: rest).length (a :: rest)
      rw [hx, hfold] at hpres
      have : some (d x) = some (List.foldl f (d a) (rest.map d)) := hpres
      exact Option.some.inj this
  · intro r hr
    have hres := reducesTo_foldOpt g f d hA hC hhom hr
    rw [hfold] at hres
    exact (Option.some.inj hres).symm

/-- C4: `smart_binary_op_seq_parallelized` returns `None` on the empty
sequence, and on a one-element sequence returns `Some` of that element's
value without ever applying `op`. -/
theorem reduce_empty_and_singleton {α : Type*} (g : α → α → α) (a : α) :
    reduceImpl g ([] : List α) = none ∧ reduceImpl g [a] = some a ∧
    opsCount g [a].length [a] = 0 :=
  ⟨rfl, rfl, rfl⟩

lemma rounds_ops_general {α : Type*} (g : α → α → α) :
    ∀ (fuel : Nat) (l : List α), 1 ≤ l.length → l.length ≤ fuel + 1 →
      roundsCount g fuel l = Nat.clog 2 l.length ∧
      opsCount g fuel l = l.length - 1
  | 0, l, h1, h2 => by
    have hl : l.length = 1 := by omega
    unfold roundsCount opsCount
    rw [hl, Nat.clog_of_right_le_one (by omega)]
    exact ⟨rfl, rfl⟩
  | fuel + 1, l, h1, h2 => by
    by_cases h : l.length ≤ 1
    · have hl : l.length = 1 := by omega
      unfold roundsCount opsCount
      rw [if_pos h, if_pos h, hl, Nat.clog_of_right_le_one (by omega)]
      exact ⟨rfl, rfl⟩
    · have h2le : 2 ≤ l.length := by omega
      have ih := rounds_ops_general g fuel (reduceRound g l)
        (by rw [reduceRound_length]; omega) (by rw [reduceRound_length]; omega)
      unfold roundsCount opsCount
      rw [if_neg h, if_neg h, ih.1, ih.2, reduceRound_length,
        Nat.clog_of_two_le (by norm_num) h2le]
      have harg : (l.length + 2 - 1) / 2 = (l.length + 1) / 2 := by omega
      rw [harg]
      exact ⟨rfl, by omega⟩

/-- C5: on a sequence of `n ≥ 1` elements the loop of
`smart_binary_op_seq_parallelized` performs exactly `⌈log₂ n⌉` rounds and
applies `op` exactly `n - 1` times. -/
theorem reduce_rounds_and_ops {α : Type*} (g : α → α → α) (l : List α)
    (h : l ≠ []) :
    roundsCount g l.length l = Nat.clog 2 l.length ∧
    opsCount g l.length l = l.length - 1 := by
  have h1 : 1 ≤ l.length := List.length_pos.mpr h
  exact rounds_ops_general g l.length l h1 (by omega)

/-- Witness for C5 on the five-element scenario-B sequence. -/
theorem reduce_rounds_and_ops_witness :
    roundsCount Nat.add [3, 1, 4, 1, 5].length [3, 1, 4, 1, 5] =
      Nat.clog 2 [3, 1, 4, 1, 5].length ∧
    opsCount Nat.add [3, 1, 4, 1, 5].length [3, 1, 4, 1, 5] =
      [3, 1, 4, 1, 5].length - 1 :=
  reduce_rounds_and_ops Nat.add [3, 1, 4, 1, 5] (List.cons_ne_nil 3 _)

/-- Witness for C2: reducing `[3, 1, 4, 1, 5]` with addition (decryption
taken as the identity) yields `some` of the fold `14`, over every run. -/
theorem smart_binary_op_seq_parallelized_correct_witness :
    (∃ r₀, reduceImpl Nat.add [3, 1, 4, 1, 5] = some r₀ ∧
        id r₀ = List.foldl Nat.add (id 3) ([1, 4, 1, 5].map id)) ∧
    (∀ r, ReducesTo Nat.add [3, 1, 4, 1, 5] r →
        id r = List.foldl Nat.add (id 3) ([1, 4, 1, 5].map id)) :=
  smart_binary_op_seq_parallelized_correct Nat.add Nat.add id
    (fun x y z => Nat.add_assoc x y z) Nat.add_comm (fun _ _ => rfl)
    3 [1, 4, 1, 5]

end Reducer

namespace Integer

/-- One radix block at the decrypted-value level: the plaintext value the
block currently encrypts (the low-level scheme is opaque and treated as
exact), its `degree` bound and its accumulated `noise_level`. -/
structure Block where
  val : Nat
  degree : Nat
  noise_level : Nat
deriving DecidableEq

/-- A radix ciphertext: ordered blocks, least-significant first. -/
structure RadixCiphertext where
  blocks : List Block
deriving DecidableEq

/-- The server key data relevant at this level: the moduli shared by all
blocks and the maximum supported noise level. -/
structure ServerKey where
  message_modulus : Nat
  carry_modulus : Nat
  max_noise_level : Nat
deriving DecidableEq

/-- Modelled from the spec: the integer represented by a block list in base
`base`, least-significant block first. -/
def blocksValue (base : Nat) : List Block → Nat
  | [] => 0
  | b :: rest => b.val + base * blocksValue base rest

/-- Modelled from the spec: decryption of a radix ciphertext — the blocks'
value in base `message_modulus`, reduced modulo `message_modulus ^ n`. -/
def decrypt (sks : ServerKey) (c : RadixCiphertext) : Nat :=
  blocksValue sks.message_modulus c.blocks % sks.message_modulus ^ c.blocks.length

/-- Modelled from the spec: `is_add_possible` — the conservative predicate
holds iff, for every aligned block pair, the degrees' sum stays within the
block capacity `message_modulus * carry_modulus - 1` and the noise levels'
sum stays within the maximum supported noise level. -/
def is_add_possible (sks : ServerKey) (a b : RadixCiphertext) : Bool :=
  (a.blocks.zip b.blocks).all fun p =>
    decide (p.1.degree + p.2.degree ≤ sks.message_modulus * sks.carry_modulus - 1) &&
    decide (p.1.noise_level + p.2.noise_level ≤ sks.max_noise_level)

/-- Modelled from the spec: blockwise unchecked addition — block payloads
add modulo the block plaintext capacity `M`, degrees and noise levels add. -/
def addBlocks (M : Nat) : List Block → List Block → List Block
  | x :: xs, y :: ys =>
    ⟨(x.val + y.val) % M, x.degree + y.degree, x.noise_level + y.noise_level⟩ ::
      addBlocks M xs ys
  | [], _ => []
  | _ :: _, [] => []

/-- Modelled from the spec: `unchecked_add` applies the low-level per-block
addition pairwise with no safety check. -/
def unchecked_add (sks : ServerKey) (a b : RadixCiphertext) : RadixCiphertext :=
  ⟨addBlocks (sks.message_modulus * sks.carry_modulus) a.blocks b.blocks⟩

/-- Modelled from the spec: `unchecked_add_assign` writes the
`unchecked_add` result into the left operand; the model returns the left
operand's new state. -/
def unchecked_add_assign (sks : ServerKey) (a b : RadixCiphertext) : RadixCiphertext :=
  unchecked_add sks a b

/-- Fixed-width base-`base` digit expansion of `v` into `n` clean blocks
(digit value, baseline degree `base - 1`, nominal noise `1`). -/
def toDigits (base : Nat) : Nat → Nat → List Block
  | 0, _ => []
  | n + 1, v => ⟨v % base, base - 1, 1⟩ :: toDigits base n (v / base)

/-- Modelled from the spec: `full_propagate_parallelized` pushes all carries
through the radix digits, resetting every block's degree and noise to
baseline; the block count and the decrypted value are preserved. -/
def full_propagate_parallelized (sks : ServerKey) (c : RadixCiphertext) : RadixCiphertext :=
  ⟨toDigits sks.message_modulus c.blocks.length
    (blocksValue sks.message_modulus c.blocks)⟩

/-- `smart_add_parallelized` from
`src/tfhe/src/integer/server_key/radix_parallel/add.rs`: when the add is not
possible, fully propagate both operands (in parallel in the source), then
`unchecked_add`.  The source mutates the operands in place; the model
returns `(result, final left operand, final right operand)`. -/
def smart_add_parallelized (sks : ServerKey) (a b : RadixCiphertext) :
    RadixCiphertext × RadixCiphertext × RadixCiphertext :=
  if is_add_possible sks a b = false then
    let a2 := full_propagate_parallelized sks a
    let b2 := full_propagate_parallelized sks b
    (unchecked_add sks a2 b2, a2, b2)
  else
    (unchecked_add sks a b, a, b)

/-- `smart_add_assign_parallelized` from the same file: identical decision
logic, but the result is written into the left operand.  The model returns
`(final left operand, final right operand)`. -/
def smart_add_assign_parallelized (sks : ServerKey) (a b : RadixCiphertext) :
    RadixCiphertext × RadixCiphertext :=
  if is_add_possible sks a b = false then
    let a2 := full_propagate_parallelized sks a
    let b2 := full_propagate_parallelized sks b
    (unchecked_add_assign sks a2 b2, b2)
  else
    (unchecked_add_assign sks a b, b)

/-- A ciphertext is normalized (fully propagated, "clean") when every block
holds a plain digit with baseline degree and nominal noise. -/
def IsNormalized (sks : ServerKey) (c : RadixCiphertext) : Prop :=
  ∀ bl ∈ c.blocks, bl.val < sks.message_modulus ∧
    bl.degree ≤ sks.message_modulus - 1 ∧ bl.noise_level ≤ 1

instance (sks : ServerKey) (c : RadixCiphertext) : Decidable (IsNormalized sks c) :=
  List.decidableBAll _ c.blocks

lemma mod_mul_decomp (v b m : Nat) : v % (b * m) = b * (v / b % m) + v % b := by
  conv_lhs => rw [← Nat.div_add_mod (v % (b * m)) b]
  rw [Nat.mod_mul_right_div_self, Nat.mod_mod_of_dvd _ ⟨m, rfl⟩]

lemma toDigits_length (base : Nat) : ∀ n v, (toDigits base n v).length = n
  | 0, _ => rfl
  | n + 1, v => by simp [toDigits, toDigits_length base n]

lemma blocksValue_toDigits (base : Nat) :
    ∀ n v, blocksValue base (toDigits base n v) = v % base ^ n
  | 0, v => by simp [toDigits, blocksValue, Nat.mod_one]
  | n + 1, v => by
    simp only [toDigits, blocksValue]
    rw [blocksValue_toDigits base n (v / base), pow_succ']
    rw [mod_mul_decomp v base (base ^ n)]
    omega

lemma toDigits_mem (base : Nat) (hb : 2 ≤ base) :
    ∀ n v, ∀ bl ∈ toDigits base n v,
      bl.val < base ∧ bl.degree ≤ base - 1 ∧ bl.noise_level ≤ 1
  | 0, v => by simp [toDigits]
  | n + 1, v => by
    intro bl hbl
    simp only [toDigits, List.mem_cons] at hbl
    rcases hbl with h | h
    · subst h
      exact ⟨Nat.mod_lt _ (by omega), Nat.le_refl _, Nat.le_refl _⟩
    · exact toDigits_mem base hb n (v / base) bl h

lemma addBlocks_length (M : Nat) :
    ∀ xs ys : List Block, (addBlocks M xs ys).length = min xs.length ys.length
  | x :: xs, y :: ys => by
    simp only [addBlocks, List.length_cons, addBlocks_length M xs ys]
    omega
  | [], ys => by cases ys <;> rfl
  | _ :: _, [] => rfl

lemma blocksValue_addBlocks (base M : Nat) :
    ∀ xs ys : List Block, xs.length = ys.length →
      (∀ p ∈ xs.zip ys, p.1.val + p.2.val < M) →
      blocksValue base (addBlocks M xs ys) =
        blocksValue base xs + blocksValue base ys
  | x :: xs, y :: ys, hlen, hbound => by
    simp only [addBlocks, blocksValue]
    rw [Nat.mod_eq_of_lt
      (hbound (x, y) (by rw [List.zip_cons_cons]; exact List.mem_cons_self _ _))]
    rw [blocksValue_addBlocks base M xs ys (by simpa using hlen)
      (fun p hp => hbound p
        (by rw [List.zip_cons_cons]; exact List.mem_cons_of_mem _ hp))]
    ring
  | [], [], _, _ => rfl
  | [], y :: ys, hlen, _ => absurd hlen (by simp)
  | x :: xs, [], hlen, _ => absurd hlen (by simp)

lemma smart_add_parallelized_of_not_possible (sks : ServerKey)
    (a b : RadixCiphertext) (h : is_add_possible sks a b = false) :
    smart_add_parallelized sks a b =
      (unchecked_add sks (full_propagate_parallelized sks a)
          (full_propagate_parallelized sks b),
        full_propagate_parallelized sks a, full_propagate_parallelized sks b) := by
  unfold smart_add_parallelized
  rw [if_pos h]

lemma smart_add_parallelized_of_possible (sks : ServerKey)
    (a b : RadixCiphertext) (h : is_add_possible sks a b = true) :
    smart_add_parallelized sks a b = (unchecked_add sks a b, a, b) := by
  unfold smart_add_parallelized
  rw [if_neg (by simp [h])]

lemma is_add_possible_spec (sks : ServerKey) (a b : RadixCiphertext)
    (h : is_add_possible sks a b = true) :
    ∀ p ∈ a.blocks.zip b.blocks,
      p.1.degree + p.2.degree ≤ sks.message_modulus * sks.carry_modulus - 1 ∧
      p.1.noise_level + p.2.noise_level ≤ sks.max_noise_level := by
  intro p hp
  unfold is_add_possible at h
  rw [List.all_eq_true] at h
  have hcond := h p hp
  simp only [Bool.and_eq_true, decide_eq_true_eq] at hcond
  exact hcond

/-- C1 (counterexample part): the claim that after `smart_add_parallelized`
both operands are always left normalized fails — when the add-possible
predicate holds, no propagation happens and a non-clean left operand stays
non-clean.  Here `message_modulus = 4, carry_modulus = 4, max noise = 5`,
and the left operand's single block holds value 4 with degree 6. -/
theorem smart_add_parallelized_not_always_normalizing :
    ¬ IsNormalized ⟨4, 4, 5⟩
        (smart_add_parallelized ⟨4, 4, 5⟩ ⟨[⟨4, 6, 2⟩]⟩ ⟨[⟨1, 3, 1⟩]⟩).2.1 := by
  decide

/-- C1 (amended): for operands with matching block counts, well-formed
blocks (`val ≤ degree`) and moduli at least 2, `smart_add_parallelized`
returns a ciphertext decrypting to the exact modular sum of the operands,
and whenever the add-possible predicate is false (the only case in which the
source renormalizes) both operands are left in normalized form. -/
theorem smart_add_parallelized_correct (sks : ServerKey) (a b : RadixCiphertext)
    (hlen : a.blocks.length = b.blocks.length)
    (hmsg : 2 ≤ sks.message_modulus) (hcar : 2 ≤ sks.carry_modulus)
    (hva : ∀ bl ∈ a.blocks, bl.val ≤ bl.degree)
    (hvb : ∀ bl ∈ b.blocks, bl.val ≤ bl.degree) :
    decrypt sks (smart_add_parallelized sks a b).1 =
      (decrypt sks a + decrypt sks b) % sks.message_modulus ^ a.blocks.length ∧
    (is_add_possible sks a b = false →
      IsNormalized sks (smart_add_parallelized sks a b).2.1 ∧
      IsNormalized sks (smart_add_parallelized sks a b).2.2) := by
  have hMbig : 2 * sks.message_modulus ≤ sks.message_modulus * sks.carry_modulus := by
    calc 2 * sks.message_modulus = sks.message_modulus * 2 := by ring
    _ ≤ sks.message_modulus * sks.carry_modulus :=
        Nat.mul_le_mul_left sks.message_modulus hcar
  by_cases hpos : is_add_possible sks a b = false
  · -- renormalizing branch
    have ha2mem := toDigits_mem sks.message_modulus hmsg a.blocks.length
      (blocksValue sks.message_modulus a.blocks)
    have hb2mem := toDigits_mem sks.message_modulus hmsg b.blocks.length
      (blocksValue sks.message_modulus b.blocks)
    have hb2mem' := toDigits_mem sks.message_modulus hmsg a.blocks.length
      (blocksValue sks.message_modulus b.blocks)
    have hsum : ∀ p ∈ (toDigits sks.message_modulus a.blocks.length
          (blocksValue sks.message_modulus a.blocks)).zip
        (toDigits sks.message_modulus a.blocks.length
          (blocksValue sks.message_modulus b.blocks)),
        p.1.val + p.2.val < sks.message_modulus * sks.carry_modulus := by
      intro p hp
      rcases List.of_mem_zip hp with ⟨h1, h2⟩
      have v1 := (ha2mem p.1 h1).1
      have v2 := (hb2mem' p.2 h2).1
      omega
    rw [smart_add_parallelized_of_not_possible sks a b hpos]
    refine ⟨?_, fun _ => ?_⟩
    · unfold decrypt unchecked_add full_propagate_parallelized
      simp only
      rw [← hlen]
      rw [addBlocks_length, toDigits_length, toDigits_length, Nat.min_self]
      rw [blocksValue_addBlocks sks.message_modulus
        (sks.message_modulus * sks.carry_modulus) _ _
        (by rw [toDigits_length, toDigits_length]) hsum]
      rw [blocksValue_toDigits, blocksValue_toDigits]
    · constructor
      · intro bl h
        exact ha2mem bl h
      · intro bl h
        exact hb2mem bl h
  · -- no renormalization: the predicate guarantees exactness
    have htrue : is_add_possible sks a b = true := by
      cases h : is_add_possible sks a b
      · exact absurd h hpos
      · rfl
    have hsum : ∀ p ∈ a.blocks.zip b.blocks,
        p.1.val + p.2.val < sks.message_modulus * sks.carry_modulus := by
      intro p hp
      have hdeg := (is_add_possible_spec sks a b htrue p hp).1
      rcases List.of_mem_zip hp with ⟨h1, h2⟩
      have v1 := hva p.1 h1
      have v2 := hvb p.2 h2
      have hMpos : 4 ≤ sks.message_modulus * sks.carry_modulus :=
        calc (4 : Nat) = 2 * 2 := rfl
        _ ≤ sks.message_modulus * sks.carry_modulus := Nat.mul_le_mul hmsg hcar
      omega
    rw [smart_add_parallelized_of_possible sks a b htrue]
    refine ⟨?_, fun hfalse => absurd hfalse hpos⟩
    unfold decrypt unchecked_add
    simp only
    rw [addBlocks_length, ← hlen, Nat.min_self]
    rw [blocksValue_addBlocks sks.message_modulus
      (sks.message_modulus * sks.carry_modulus) _ _ hlen hsum]
    rw [Nat.add_mod]

/-- Witness for C1's amended theorem: the 4-block scenario with
`message_modulus = 4`, `carry_modulus = 4`, operands encrypting 14 and 97;
the sum decrypts to 111 and the fresh operands are still normalized after
the call. -/
theorem smart_add_parallelized_correct_witness :
    (decrypt ⟨4, 4, 5⟩
        (smart_add_parallelized ⟨4, 4, 5⟩
          ⟨[⟨2, 3, 1⟩, ⟨3, 3, 1⟩, ⟨0, 3, 1⟩, ⟨0, 3, 1⟩]⟩
          ⟨[⟨1, 3, 1⟩, ⟨0, 3, 1⟩, ⟨2, 3, 1⟩, ⟨1, 3, 1⟩]⟩).1 =
      (decrypt ⟨4, 4, 5⟩ ⟨[⟨2, 3, 1⟩, ⟨3, 3, 1⟩, ⟨0, 3, 1⟩, ⟨0, 3, 1⟩]⟩ +
        decrypt ⟨4, 4, 5⟩ ⟨[⟨1, 3, 1⟩, ⟨0, 3, 1⟩, ⟨2, 3, 1⟩, ⟨1, 3, 1⟩]⟩) %
        (4 : Nat) ^ 4 ∧
      (is_add_possible ⟨4, 4, 5⟩
          ⟨[⟨2, 3, 1⟩, ⟨3, 3, 1⟩, ⟨0, 3, 1⟩, ⟨0, 3, 1⟩]⟩
          ⟨[⟨1, 3, 1⟩, ⟨0, 3, 1⟩, ⟨2, 3, 1⟩, ⟨1, 3, 1⟩]⟩ = false →
        IsNormalized ⟨4, 4, 5⟩
          (smart_add_parallelized ⟨4, 4, 5⟩
            ⟨[⟨2, 3, 1⟩, ⟨3, 3, 1⟩, ⟨0, 3, 1⟩, ⟨0, 3, 1⟩]⟩
            ⟨[⟨1, 3, 1⟩, ⟨0, 3, 1⟩, ⟨2, 3, 1⟩, ⟨1, 3, 1⟩]⟩).2.1 ∧
        IsNormalized ⟨4, 4, 5⟩
          (smart_add_parallelized ⟨4, 4, 5⟩
            ⟨[⟨2, 3, 1⟩, ⟨3, 3, 1⟩, ⟨0, 3, 1⟩, ⟨0, 3, 1⟩]⟩
            ⟨[⟨1, 3, 1⟩, ⟨0, 3, 1⟩, ⟨2, 3, 1⟩, ⟨1, 3, 1⟩]⟩).2.2)) ∧
    decrypt ⟨4, 4, 5⟩
        (smart_add_parallelized ⟨4, 4, 5⟩
          ⟨[⟨2, 3, 1⟩, ⟨3, 3, 1⟩, ⟨0, 3, 1⟩, ⟨0, 3, 1⟩]⟩
          ⟨[⟨1, 3, 1⟩, ⟨0, 3, 1⟩, ⟨2, 3, 1⟩, ⟨1, 3, 1⟩]⟩).1 = 111 ∧
    IsNormalized ⟨4, 4, 5⟩
      (smart_add_parallelized ⟨4, 4, 5⟩
        ⟨[⟨2, 3, 1⟩, ⟨3, 3, 1⟩, ⟨0, 3, 1⟩, ⟨0, 3, 1⟩]⟩
        ⟨[⟨1, 3, 1⟩, ⟨0, 3, 1⟩, ⟨2, 3, 1⟩, ⟨1, 3, 1⟩]⟩).2.1 ∧
    IsNormalized ⟨4, 4, 5⟩
      (smart_add_parallelized ⟨4, 4, 5⟩
        ⟨[⟨2, 3, 1⟩, ⟨3, 3, 1⟩, ⟨0, 3, 1⟩, ⟨0, 3, 1⟩]⟩
        ⟨[⟨1, 3, 1⟩, ⟨0, 3, 1⟩, ⟨2, 3, 1⟩, ⟨1, 3, 1⟩]⟩).2.2 :=
  ⟨smart_add_parallelized_correct ⟨4, 4, 5⟩
      ⟨[⟨2, 3, 1⟩, ⟨3, 3, 1⟩, ⟨0, 3, 1⟩, ⟨0, 3, 1⟩]⟩
      ⟨[⟨1, 3, 1⟩, ⟨0, 3, 1⟩, ⟨2, 3, 1⟩, ⟨1, 3, 1⟩]⟩
      (by decide) (by decide) (by decide) (by decide) (by decide),
    by decide, by decide, by decide⟩

/-- C7: `smart_add_assign_parallelized` takes the same renormalization
decision as `smart_add_parallelized` and leaves the left operand holding
exactly the ciphertext `smart_add_parallelized` would have returned, with
the right operand in the same final state in both variants. -/
theorem smart_add_assign_parallelized_refines (sks : ServerKey)
    (a b : RadixCiphertext) :
    (smart_add_assign_parallelized sks a b).1 =
      (smart_add_parallelized sks a b).1 ∧
    (smart_add_assign_parallelized sks a b).2 =
      (smart_add_parallelized sks a b).2.2 := by
  unfold smart_add_assign_parallelized smart_add_parallelized unchecked_add_assign
  by_cases h : is_add_possible sks a b = false <;> simp [h]

end Integer

namespace Gpu

/-- Per-block metadata copied to and from the device (`CudaBlockInfo` in
`src/tfhe/src/integer/gpu/ciphertext/info.rs`). -/
structure CudaBlockInfo where
  degree : Nat
  message_modulus : Nat
  carry_modulus : Nat
  pbs_order : Bool
  noise_level : Nat
deriving DecidableEq

/-- A host-side shortint block (`shortint::Ciphertext`): the raw LWE
container words plus the block metadata; the payload words are opaque. -/
structure Ciphertext where
  ct : List Nat
  ciphertext_modulus : Nat
  degree : Nat
  noise_level : Nat
  message_modulus : Nat
  carry_modulus : Nat
  pbs_order : Bool
deriving DecidableEq

/-- The host radix ciphertext as seen by the bridge: ordered blocks. -/
structure RadixCiphertext where
  blocks : List Ciphertext
deriving DecidableEq

/-- Modelled from the spec: device global memory as an indexed family of
word buffers; allocation appends a fresh buffer. -/
structure DeviceMem where
  bufs : List (List Nat)
deriving DecidableEq

/-- A `CudaVec` handle: an index into device memory. -/
structure CudaVec where
  idx : Nat
deriving DecidableEq

/-- Modelled from the spec: the words currently stored in a device buffer. -/
def readBuf (mem : DeviceMem) (i : Nat) : List Nat := mem.bufs.getD i []

/-- Modelled from the spec: in-place overwrite of one device buffer. -/
def writeBuf (mem : DeviceMem) (i : Nat) (data : List Nat) : DeviceMem :=
  ⟨mem.bufs.set i data⟩

/-- Modelled from the spec: allocate a fresh device buffer holding `data`;
returns the new handle together with the new memory state. -/
def allocBuf (mem : DeviceMem) (data : List Nat) : CudaVec × DeviceMem :=
  (⟨mem.bufs.length⟩, ⟨mem.bufs ++ [data]⟩)

/-- Device-side LWE ciphertext list (`CudaLweCiphertextList`): a buffer
handle plus the list-level count, stride and modulus. -/
structure CudaLweCiphertextList where
  d_vec : CudaVec
  lwe_ciphertext_count : Nat
  lwe_size : Nat
  ciphertext_modulus : Nat
deriving DecidableEq

/-- `CudaRadixCiphertext` from `src/tfhe/src/integer/gpu/ciphertext/mod.rs`:
device blocks plus the parallel per-block metadata array. -/
structure CudaRadixCiphertext where
  d_blocks : CudaLweCiphertextList
  info : List CudaBlockInfo
deriving DecidableEq

/-- `from_radix_ciphertext`: flatten all block payloads into one staging
buffer, read the LWE size and ciphertext modulus off the first block — the
source unwraps `blocks.first()`, modelled as `none` on an empty block list —
then copy the buffer to a fresh device allocation and the metadata
positionally. -/
def from_radix_ciphertext (radix : RadixCiphertext) (mem : DeviceMem) :
    Option (CudaRadixCiphertext × DeviceMem) :=
  match radix.blocks.head? with
  | none => none
  | some fst =>
    let h_radix_ciphertext := (radix.blocks.map Ciphertext.ct).flatten
    let lwe_size := fst.ct.length
    let ciphertext_modulus := fst.ciphertext_modulus
    let alloc := allocBuf mem h_radix_ciphertext
    some
      (⟨⟨alloc.1, radix.blocks.length, lwe_size, ciphertext_modulus⟩,
          radix.blocks.map fun block =>
            ⟨block.degree, block.message_modulus, block.carry_modulus,
              block.pbs_order, block.noise_level⟩⟩,
        alloc.2)

/-- Splitting a flat container into consecutive chunks of `k` words
(`.chunks(lwe_size)` on the host copy of the device buffer). -/
def chunksExact {α : Type*} (k : Nat) : List α → List (List α)
  | [] => []
  | x :: rest =>
    if k = 0 then []
    else (x :: rest).take k :: chunksExact k ((x :: rest).drop k)
  termination_by l => l.length
  decreasing_by simp only [List.length_drop, List.length_cons]; omega

/-- `to_radix_ciphertext`: synchronous device-to-host copy, splitting the
flat buffer at the fixed per-block stride and re-attaching the metadata of
device entry `i` to host block `i`. -/
def to_radix_ciphertext (c : CudaRadixCiphertext) (mem : DeviceMem) :
    RadixCiphertext :=
  let h_lwe_ciphertext_list := readBuf mem c.d_blocks.d_vec.idx
  let ciphertext_modulus := c.d_blocks.ciphertext_modulus
  let lwe_size := c.d_blocks.lwe_size
  ⟨((chunksExact lwe_size h_lwe_ciphertext_list).zip c.info).map fun p =>
      ⟨p.1, ciphertext_modulus, p.2.degree, p.2.noise_level,
        p.2.message_modulus, p.2.carry_modulus, p.2.pbs_order⟩⟩

/-- `duplicate_async`: allocate a fresh device buffer of the source's size
and copy the source buffer into it device-to-device; the metadata array is
cloned.  Unsafe in the source: the caller must synchronize the stream. -/
def duplicate_async (c : CudaRadixCiphertext) (mem : DeviceMem) :
    CudaRadixCiphertext × DeviceMem :=
  let alloc := allocBuf mem (readBuf mem c.d_blocks.d_vec.idx)
  (⟨⟨alloc.1, c.d_blocks.lwe_ciphertext_count, c.d_blocks.lwe_size,
      c.d_blocks.ciphertext_modulus⟩, c.info⟩, alloc.2)

/-- Modelled from the spec: `stream.synchronize()` waits for queued device
work; every modelled bridge operation is already applied to memory when it
returns, so the wait leaves the memory state unchanged. -/
def synchronize (mem : DeviceMem) : DeviceMem := mem

/-- `duplicate`: the synchronous wrapper — `duplicate_async` followed by the
internal stream wait. -/
def duplicate (c : CudaRadixCiphertext) (mem : DeviceMem) :
    CudaRadixCiphertext × DeviceMem :=
  let r := duplicate_async c mem
  (r.1, synchronize r.2)

lemma readBuf_alloc_new (mem : DeviceMem) (data : List Nat) :
    readBuf (allocBuf mem data).2 (allocBuf mem data).1.idx = data := by
  unfold readBuf allocBuf
  simp only
  rw [List.getD_eq_getElem?_getD, List.getElem?_append_right (Nat.le_refl _)]
  simp

lemma readBuf_append_last (bufs : List (List Nat)) (data : List Nat) :
    readBuf ⟨bufs ++ [data]⟩ bufs.length = data := by
  unfold readBuf
  simp only
  rw [List.getD_eq_getElem?_getD, List.getElem?_append_right (Nat.le_refl _)]
  simp

lemma readBuf_write_ne (mem : DeviceMem) (i j : Nat) (data : List Nat)
    (h : i ≠ j) : readBuf (writeBuf mem i data) j = readBuf mem j := by
  unfold readBuf writeBuf
  simp only
  rw [List.getD_eq_getElem?_getD, List.getD_eq_getElem?_getD,
    List.getElem?_set_ne h]

lemma chunksExact_cons_eq {α : Type*} (k : Nat) (hk : k ≠ 0) (l : List α)
    (hne : l ≠ []) :
    chunksExact k l = l.take k :: chunksExact k (l.drop k) := by
  cases l with
  | nil => exact absurd rfl hne
  | cons y ys => simp [chunksExact, hk]

lemma chunksExact_flatten {α : Type*} (k : Nat) (hk : 0 < k) :
    ∀ ls : List (List α), (∀ x ∈ ls, x.length = k) →
      chunksExact k ls.flatten = ls
  | [], _ => by simp [chunksExact]
  | x :: rest, h => by
    have hx : x.length = k := h x (List.mem_cons_self _ _)
    have hxne : x ++ rest.flatten ≠ [] := by
      intro hcontra
      have hlen : (x ++ rest.flatten).length = 0 := by rw [hcontra]; rfl
      rw [List.length_append, hx] at hlen
      omega
    rw [List.flatten_cons,
      chunksExact_cons_eq k (by omega) (x ++ rest.flatten) hxne,
      List.take_left' hx, List.drop_left' hx,
      chunksExact_flatten k hk rest (fun y hy => h y (List.mem_cons_of_mem _ hy))]

/-- C10: the host-to-device transfer requires a non-empty block list — on an
empty one the `blocks.first().unwrap()` fails (modelled as `none`), and on
every non-empty input the unwrap branch is unreachable and a device
ciphertext is produced. -/
theorem from_radix_ciphertext_requires_nonempty (radix : RadixCiphertext)
    (mem : DeviceMem) :
    (radix.blocks = [] → from_radix_ciphertext radix mem = none) ∧
    (radix.blocks ≠ [] → (from_radix_ciphertext radix mem).isSome = true) := by
  constructor
  · intro h
    unfold from_radix_ciphertext
    rw [h]
    rfl
  · intro h
    unfold from_radix_ciphertext
    cases hb : radix.blocks with
    | nil => exact absurd hb h
    | cons fst rest => rfl

/-- Witness for C10 at an empty and at a one-block radix ciphertext. -/
theorem from_radix_ciphertext_requires_nonempty_witness :
    from_radix_ciphertext ⟨[]⟩ ⟨[]⟩ = none ∧
    (from_radix_ciphertext ⟨[⟨[1, 2], 8, 1, 1, 4, 4, false⟩]⟩ ⟨[]⟩).isSome = true :=
  ⟨(from_radix_ciphertext_requires_nonempty ⟨[]⟩ ⟨[]⟩).1 rfl,
    (from_radix_ciphertext_requires_nonempty ⟨[⟨[1, 2], 8, 1, 1, 4, 4, false⟩]⟩
      ⟨[]⟩).2 (by decide)⟩

/-- C3: the device round-trip reconstructs the host ciphertext exactly —
the flat buffer is split back at the fixed per-block stride in order, and
device metadata entry `i` is re-attached to host block `i`, so
`to_radix_ciphertext (from_radix_ciphertext c)` equals `c` (and hence
decrypts identically), for any non-empty block list with the uniform block
stride and ciphertext modulus the radix invariant guarantees. -/
theorem to_radix_from_radix_roundtrip (radix : RadixCiphertext)
    (mem : DeviceMem) (lwe0 q0 : Nat) (hne : radix.blocks ≠ [])
    (hpos : 0 < lwe0)
    (hsize : ∀ bl ∈ radix.blocks, bl.ct.length = lwe0)
    (hq : ∀ bl ∈ radix.blocks, bl.ciphertext_modulus = q0) :
    ∃ c mem2, from_radix_ciphertext radix mem = some (c, mem2) ∧
      to_radix_ciphertext c mem2 = radix := by
  obtain ⟨fst, rest, hb⟩ := List.exists_cons_of_ne_nil hne
  have hfst : radix.blocks.head? = some fst := by rw [hb]; rfl
  have hfst_mem : fst ∈ radix.blocks := by rw [hb]; exact List.mem_cons_self _ _
  have hfst_len : fst.ct.length = lwe0 := hsize fst hfst_mem
  have hfst_q : fst.ciphertext_modulus = q0 := hq fst hfst_mem
  refine ⟨⟨⟨⟨mem.bufs.length⟩, radix.blocks.length, fst.ct.length,
        fst.ciphertext_modulus⟩,
      radix.blocks.map fun block =>
        ⟨block.degree, block.message_modulus, block.carry_modulus,
          block.pbs_order, block.noise_level⟩⟩,
    ⟨mem.bufs ++ [(radix.blocks.map Ciphertext.ct).flatten]⟩, ?_, ?_⟩
  · unfold from_radix_ciphertext
    rw [hfst]
    rfl
  · unfold to_radix_ciphertext
    simp only
    rw [readBuf_append_last]
    have hchunks : chunksExact fst.ct.length
        (radix.blocks.map Ciphertext.ct).flatten = radix.blocks.map Ciphertext.ct := by
      rw [hfst_len]
      exact chunksExact_flatten lwe0 hpos (radix.blocks.map Ciphertext.ct)
        (by intro x hx
            obtain ⟨bl, hbl, hblx⟩ := List.mem_map.mp hx
            rw [← hblx]
            exact hsize bl hbl)
    rw [hchunks, List.zip_map']
    have hmap : ∀ bl ∈ radix.blocks,
        (⟨bl.ct, fst.ciphertext_modulus, bl.degree, bl.noise_level,
          bl.message_modulus, bl.carry_modulus, bl.pbs_order⟩ : Ciphertext) = bl := by
      intro bl hbl
      have : bl.ciphertext_modulus = fst.ciphertext_modulus := by
        rw [hq bl hbl, hfst_q]
      rw [← this]
    cases radix with
    | mk blocks =>
      congr 1
      simp only [List.map_map]
      calc List.map _ blocks = List.map id blocks :=
        List.map_congr_left (fun bl hbl => hmap bl hbl)
      _ = blocks := List.map_id blocks

/-- Witness for C3 on a two-block ciphertext with stride 2. -/
theorem to_radix_from_radix_roundtrip_witness :
    ∃ c mem2,
      from_radix_ciphertext
        ⟨[⟨[1, 2], 8, 1, 1, 4, 4, false⟩, ⟨[3, 4], 8, 2, 1, 4, 4, false⟩]⟩
        ⟨[]⟩ = some (c, mem2) ∧
      to_radix_ciphertext c mem2 =
        ⟨[⟨[1, 2], 8, 1, 1, 4, 4, false⟩, ⟨[3, 4], 8, 2, 1, 4, 4, false⟩]⟩ :=
  to_radix_from_radix_roundtrip
    ⟨[⟨[1, 2], 8, 1, 1, 4, 4, false⟩, ⟨[3, 4], 8, 2, 1, 4, 4, false⟩]⟩
    ⟨[]⟩ 2 8 (by decide) (by decide) (by decide) (by decide)

/-- C6: the synchronous `duplicate` produces a handle backed by a fresh,
independent buffer whose content and per-block metadata equal the source's
at call time, and any later overwrite of the source buffer leaves the
duplicate's content (hence its decrypted value) and metadata unchanged. -/
theorem duplicate_isolated (c : CudaRadixCiphertext) (mem : DeviceMem)
    (data : List Nat) (hvalid : c.d_blocks.d_vec.idx < mem.bufs.length) :
    readBuf (duplicate c mem).2 (duplicate c mem).1.d_blocks.d_vec.idx =
      readBuf mem c.d_blocks.d_vec.idx ∧
    (duplicate c mem).1.info = c.info ∧
    (duplicate c mem).1.d_blocks.d_vec.idx ≠ c.d_blocks.d_vec.idx ∧
    readBuf (writeBuf (duplicate c mem).2 c.d_blocks.d_vec.idx data)
        (duplicate c mem).1.d_blocks.d_vec.idx =
      readBuf mem c.d_blocks.d_vec.idx := by
  have hidx : (duplicate c mem).1.d_blocks.d_vec.idx = mem.bufs.length := rfl
  have hcontent : readBuf (duplicate c mem).2
      (duplicate c mem).1.d_blocks.d_vec.idx = readBuf mem c.d_blocks.d_vec.idx :=
    readBuf_alloc_new mem (readBuf mem c.d_blocks.d_vec.idx)
  refine ⟨hcontent, rfl, ?_, ?_⟩
  · rw [hidx]
    omega
  · rw [readBuf_write_ne _ _ _ data (by rw [hidx]; omega)]
    exact hcontent

/-- Witness for C6 on a one-buffer memory. -/
theorem duplicate_isolated_witness :
    readBuf (duplicate ⟨⟨⟨0⟩, 1, 2, 8⟩, [⟨1, 4, 4, false, 1⟩]⟩ ⟨[[5, 6]]⟩).2
        (duplicate ⟨⟨⟨0⟩, 1, 2, 8⟩, [⟨1, 4, 4, false, 1⟩]⟩ ⟨[[5, 6]]⟩).1.d_blocks.d_vec.idx =
      readBuf ⟨[[5, 6]]⟩ 0 ∧
    (duplicate ⟨⟨⟨0⟩, 1, 2, 8⟩, [⟨1, 4, 4, false, 1⟩]⟩ ⟨[[5, 6]]⟩).1.info =
      [⟨1, 4, 4, false, 1⟩] ∧
    (duplicate ⟨⟨⟨0⟩, 1, 2, 8⟩, [⟨1, 4, 4, false, 1⟩]⟩ ⟨[[5, 6]]⟩).1.d_blocks.d_vec.idx ≠ 0 ∧
    readBuf
        (writeBuf (duplicate ⟨⟨⟨0⟩, 1, 2, 8⟩, [⟨1, 4, 4, false, 1⟩]⟩ ⟨[[5, 6]]⟩).2 0 [9, 9])
        (duplicate ⟨⟨⟨0⟩, 1, 2, 8⟩, [⟨1, 4, 4, false, 1⟩]⟩ ⟨[[5, 6]]⟩).1.d_blocks.d_vec.idx =
      readBuf ⟨[[5, 6]]⟩ 0 :=
  duplicate_isolated ⟨⟨⟨0⟩, 1, 2, 8⟩, [⟨1, 4, 4, false, 1⟩]⟩ ⟨[[5, 6]]⟩ [9, 9]
    (by decide)

end Gpu
